import Mathlib

set_option maxRecDepth 4000

/-!
Verification of the repository-name construction and validation module of the
rapid-flutter-gcp scaffolding kit.

The repository contains two variants of the naming module:
* `scripts/_naming.mjs` (referred to below as the "Naming" variant), and
* a copy embedded in `scripts/_templates.mjs` (the "T" variant).

JS strings are modelled as `List Char`; JS values that may be `null` or
`undefined` are modelled by `JsVal`.  All regular-expression operations of the
source are translated structurally (run replacement, anchored character-class
tests, splitting), and JS truthiness of a string is emptiness.
-/

namespace RapidFlutterGcp

/-- The character class `[a-z0-9]` (by code point: 97..122 or 48..57). -/
def alnumLower (c : Char) : Bool :=
  decide (97 ≤ c.toNat ∧ c.toNat ≤ 122) || decide (48 ≤ c.toNat ∧ c.toNat ≤ 57)

/-- The character class `[a-z0-9-]` used by `/^[a-z0-9-]+$/`. -/
def charsetOk (c : Char) : Bool :=
  alnumLower c || c == '-'

/-- The character class `[A-Z_ ]` used by the redundant safety-net check. -/
def forbiddenChar (c : Char) : Bool :=
  decide (65 ≤ c.toNat ∧ c.toNat ≤ 90) || c == '_' || c == ' '

/-- Decimal digit, for the `\d` of `/^v\d+$/`. -/
def isDigitCh (c : Char) : Bool :=
  decide (48 ≤ c.toNat ∧ c.toNat ≤ 57)

/-- The WhiteSpace/LineTerminator set recognised by `String.prototype.trim`. -/
def jsWs (c : Char) : Bool :=
  decide (c.toNat = 9) || decide (c.toNat = 10) || decide (c.toNat = 11) ||
  decide (c.toNat = 12) || decide (c.toNat = 13) || decide (c.toNat = 32) ||
  decide (c.toNat = 160) || decide (c.toNat = 0x1680) ||
  decide (0x2000 ≤ c.toNat ∧ c.toNat ≤ 0x200A) ||
  decide (c.toNat = 0x2028) || decide (c.toNat = 0x2029) ||
  decide (c.toNat = 0x202F) || decide (c.toNat = 0x205F) ||
  decide (c.toNat = 0x3000) || decide (c.toNat = 0xFEFF)

/-- `String.prototype.toLowerCase`, restricted to the ASCII range that the
naming pipeline can ever keep (any character that is not `[a-z0-9]` after
lowering is replaced by a hyphen in the next step). -/
def jsLower (c : Char) : Char :=
  if 65 ≤ c.toNat ∧ c.toNat ≤ 90 then Char.ofNat (c.toNat + 32) else c

lemma dropWhile_length_le (p : Char → Bool) :
    ∀ l : List Char, (l.dropWhile p).length ≤ l.length := by
  intro l
  induction l with
  | nil => simp [List.dropWhile]
  | cons a l ih =>
    rw [List.dropWhile_cons]
    split
    · exact Nat.le_succ_of_le ih
    · simp

/-- Drop a trailing run of characters satisfying `p` (together with
`List.dropWhile` on the front this models the global replacement of the
regex "leading hyphen run or trailing hyphen run" by the empty string, and
likewise the two-sided `trim`). -/
def dropTrailingWhile (p : Char → Bool) : List Char → List Char
  | [] => []
  | c :: cs =>
    match dropTrailingWhile p cs with
    | [] => if p c then [] else [c]
    | r => c :: r

/-- `String.prototype.trim`: strip leading and trailing JS whitespace. -/
def jsTrim (cs : List Char) : List Char :=
  dropTrailingWhile jsWs (cs.dropWhile jsWs)

/-- Left-to-right scan behind `replaceRuns`: the flag records whether the
previous character was part of a (already replaced) non-alphanumeric run. -/
def replaceRunsAux : Bool → List Char → List Char
  | _, [] => []
  | inRun, c :: cs =>
    if alnumLower c then c :: replaceRunsAux false cs
    else if inRun then replaceRunsAux true cs
    else '-' :: replaceRunsAux true cs

/-- `.replace(/[^a-z0-9]+/g, "-")`: every maximal run of characters outside
`[a-z0-9]` becomes a single hyphen (the first character of a run emits the
hyphen, the rest of the run is skipped). -/
def replaceRuns (cs : List Char) : List Char :=
  replaceRunsAux false cs

/-- `.replace(/^-+|-+$/g, "")`: strip leading and trailing hyphen runs. -/
def stripEdges (cs : List Char) : List Char :=
  dropTrailingWhile (fun c => c == '-') (cs.dropWhile (fun c => c == '-'))

/-- Left-to-right scan behind `collapseHyphens`: the flag records whether the
previous character belonged to a (already collapsed) hyphen run. -/
def collapseHyphensAux : Bool → List Char → List Char
  | _, [] => []
  | inRun, c :: cs =>
    if c == '-' then
      if inRun then collapseHyphensAux true cs
      else '-' :: collapseHyphensAux true cs
    else c :: collapseHyphensAux false cs

/-- The last `.replace` of `toKebab`: collapse every run of hyphens into a
single hyphen. -/
def collapseHyphens (cs : List Char) : List Char :=
  collapseHyphensAux false cs

/-- `toKebab` (identical in both variants once the input is a string):
trim, lowercase, replace non-alphanumeric runs by `-`, strip edge hyphens,
collapse hyphen runs. -/
def toKebab (cs : List Char) : List Char :=
  collapseHyphens (stripEdges (replaceRuns ((jsTrim cs).map jsLower)))

/-- `name.split("-")`: split at every hyphen, keeping empty pieces. -/
def splitHyphen : List Char → List (List Char)
  | [] => [[]]
  | c :: cs =>
    if c = '-' then [] :: splitHyphen cs
    else
      match splitHyphen cs with
      | [] => [[c]]
      | s :: rest => (c :: s) :: rest

/-- `name.split("-").filter(Boolean)`: the non-empty hyphen-delimited segments. -/
def partsOf (name : List Char) : List (List Char) :=
  (splitHyphen name).filter (fun p => !p.isEmpty)

/-- `/^v\d+$/.test(p)`. -/
def vpat : List Char → Bool
  | [] => false
  | c :: rest => c == 'v' && !rest.isEmpty && rest.all isDigitCh

/-- `n.includes("--")`. -/
def hasDouble : List Char → Bool
  | a :: b :: t => ((a == '-') && (b == '-')) || hasDouble (b :: t)
  | _ => false

/-- `BAD_VERSION_TOKENS` of `scripts/_naming.mjs`. -/
def badTokensNaming : List (List Char) :=
  (["v1", "v2", "v3", "v4", "v5", "final", "latest", "new", "old"]).map String.toList

/-- `BAD_VERSION_TOKENS` of the naming module copy in `scripts/_templates.mjs`. -/
def badTokensT : List (List Char) :=
  (["v1", "v2", "v3", "v4", "v5", "v6", "v7", "v8", "v9", "v10",
    "final", "latest", "new", "old", "release", "rev"]).map String.toList

def msgCharset : String := "Use only lowercase letters, numbers, and hyphens."
def msgForbidden : String := "No uppercase, underscores, or spaces."
def msgDouble : String := "No double hyphens."
def msgEdge : String := "No leading/trailing hyphen."

/-- Segment-count message of `_naming.mjs` (note: "e.g." without comma). -/
def msgMinSegNaming : String :=
  "Use at least two segments, e.g. \x7bproject\x7d-\x7bdescription\x7d."

/-- Segment-count message of the `_templates.mjs` copy ("e.g.," with comma). -/
def msgMinSegT : String :=
  "Use at least two segments, e.g., \x7bproject\x7d-\x7bdescription\x7d."

/-- `Avoid versioning/placeholder token: "<p>".` -/
def msgVersioning (p : List Char) : String :=
  ⟨"Avoid versioning/placeholder token: \"".toList ++ p ++ "\".".toList⟩

/-- `Avoid version token: "<p>".` -/
def msgVersion (p : List Char) : String :=
  ⟨"Avoid version token: \"".toList ++ p ++ "\".".toList⟩

structure ValidationResult where
  ok : Bool
  errors : List String
deriving Repr, DecidableEq

/-- The per-segment body of the `for (const p of parts)` loop, parameterised by
the variant's token set (the loop bodies are textually identical in the two
variants; only the set differs). -/
def tokenMsgs (bad : List (List Char)) (p : List Char) : List String :=
  (if p ∈ bad then [msgVersioning p] else []) ++
  (if vpat p then [msgVersion p] else [])

/-- Sequential `errors.push` over the segments of the `for` loop. -/
def forEachPart (f : List Char → List String) : List (List Char) → List String
  | [] => []
  | p :: ps => f p ++ forEachPart f ps

/-- `validateRepoName` of `scripts/_naming.mjs` on a string argument.
The checks run in source order: character set, forbidden characters, double
hyphen, edge hyphen, then the token loop, then the segment-count rule. -/
def validateRepoNameNaming (name : List Char) : ValidationResult :=
  let errors :=
    (if !(!name.isEmpty && name.all charsetOk) then [msgCharset] else []) ++
    (if name.any forbiddenChar then [msgForbidden] else []) ++
    (if hasDouble name then [msgDouble] else []) ++
    (if (name.head? == some '-') || (name.getLast? == some '-') then [msgEdge] else []) ++
    forEachPart (tokenMsgs badTokensNaming) (partsOf name) ++
    (if (partsOf name).length < 2 then [msgMinSegNaming] else [])
  ⟨errors.length == 0, errors⟩

/-- `validateRepoName` of the `scripts/_templates.mjs` copy on an
already-coerced string (`String(name ?? "")`).  Here the segment-count rule
runs before the token loop, and the token set is the larger one. -/
def validateRepoNameT (n : List Char) : ValidationResult :=
  let errors :=
    (if !(!n.isEmpty && n.all charsetOk) then [msgCharset] else []) ++
    (if n.any forbiddenChar then [msgForbidden] else []) ++
    (if hasDouble n then [msgDouble] else []) ++
    (if (n.head? == some '-') || (n.getLast? == some '-') then [msgEdge] else []) ++
    (if (partsOf n).length < 2 then [msgMinSegT] else []) ++
    forEachPart (tokenMsgs badTokensT) (partsOf n)
  ⟨errors.length == 0, errors⟩

/-- A JS value that is a string, `null`, or `undefined`. -/
inductive JsVal where
  | str (s : List Char)
  | nullV
  | undefV
deriving Repr, DecidableEq

/-- `String(v)` (the ToString coercion used by `_naming.mjs`'s `toKebab`
and, implicitly, by `RegExp.test`). -/
def jsToString : JsVal → List Char
  | .str s => s
  | .nullV => "null".toList
  | .undefV => "undefined".toList

/-- `String(v ?? "")` (the coercion used by the `_templates.mjs` copy). -/
def jsCoalesce : JsVal → List Char
  | .str s => s
  | _ => []

/-- JS truthiness of a string/null/undefined value. -/
def truthy : JsVal → Bool
  | .str s => !s.isEmpty
  | _ => false

/-- `toKebab` of `scripts/_naming.mjs` on a possibly-null/undefined argument:
`String(s)` stringifies `null` to `"null"` and `undefined` to `"undefined"`. -/
def toKebabNamingJs (v : JsVal) : List Char :=
  toKebab (jsToString v)

/-- `toKebab` of the `scripts/_templates.mjs` copy: `String(s ?? "")` sends
`null` and `undefined` to the empty string. -/
def toKebabTJs (v : JsVal) : List Char :=
  toKebab (jsCoalesce v)

/-- A thrown JS exception (the only kind the naming module can raise). -/
inductive JsError where
  | typeError
deriving Repr, DecidableEq

/-- `validateRepoName` of `scripts/_naming.mjs` on an arbitrary
string/null/undefined argument.  On a non-string `name` the two leading
`RegExp.test` calls merely coerce (`"null"`/`"undefined"` match
`/^[a-z0-9-]+$/` and fail `/[A-Z_ ]/`, so they push nothing), and then
`name.includes("--")` throws a `TypeError` because `null`/`undefined` have no
methods; the partially accumulated error list is discarded by the throw. -/
def validateRepoNameNamingJs : JsVal → Except JsError ValidationResult
  | .str n => .ok (validateRepoNameNaming n)
  | _ => .error .typeError

/-- `validateRepoName` of the `scripts/_templates.mjs` copy on an arbitrary
string/null/undefined argument: `String(name ?? "")` coerces before any
method call, so nothing can throw. -/
def validateRepoNameTJs (v : JsVal) : Except JsError ValidationResult :=
  .ok (validateRepoNameT (jsCoalesce v))

def isOkE : Except JsError ValidationResult → Bool
  | .ok _ => true
  | .error _ => false

/-- `Array.prototype.join("-")`. -/
def joinHyphen : List (List Char) → List Char
  | [] => []
  | [p] => p
  | p :: ps => p ++ '-' :: joinHyphen ps

/-- The options object of `buildRepoName` in `scripts/_templates.mjs`, with
every field a string.  Inside `buildRepoName` a field is only ever tested for
truthiness, filtered by `Boolean`, or interpolated when truthy, so an absent
(`undefined`) field behaves exactly like the empty string; `NamingIntentJs`
below keeps `undefined`/`null` explicit and is proved equivalent.  The JS
`prefix` field is called `pfx` (`prefix` is reserved in Lean). -/
structure NamingIntent where
  pfx : List Char
  project : List Char
  description : List Char
  service : List Char
  type : List Char
  team : List Char
  component : List Char
  raw : List Char
deriving Repr, DecidableEq

/-- `buildRepoName` of `scripts/_templates.mjs`. -/
def buildRepoName (i : NamingIntent) : List Char :=
  if !i.raw.isEmpty then toKebab i.raw
  else
    let parts :=
      if !i.team.isEmpty || !i.component.isEmpty then [i.team, i.component]
      else if !i.service.isEmpty || !i.type.isEmpty then [i.project, i.service, i.type]
      else [i.project, i.description]
    let base := toKebab (joinHyphen (parts.filter (fun p => !p.isEmpty)))
    if !i.pfx.isEmpty then toKebab (i.pfx ++ '-' :: base) else base

/-- The options object with possibly-undefined/null fields. -/
structure NamingIntentJs where
  pfx : JsVal
  project : JsVal
  description : JsVal
  service : JsVal
  type : JsVal
  team : JsVal
  component : JsVal
  raw : JsVal
deriving Repr, DecidableEq

def coerceIntent (j : NamingIntentJs) : NamingIntent :=
  ⟨jsCoalesce j.pfx, jsCoalesce j.project, jsCoalesce j.description,
   jsCoalesce j.service, jsCoalesce j.type, jsCoalesce j.team,
   jsCoalesce j.component, jsCoalesce j.raw⟩

/-- `buildRepoName` of `scripts/_templates.mjs` read over raw JS field values:
`if (raw)`/`if (team || component)`/… are truthiness tests,
`parts.filter(Boolean)` keeps truthy fields, and `${prefix}-${base}`
interpolates the (truthy, hence string) prefix. -/
def buildRepoNameJs (i : NamingIntentJs) : List Char :=
  if truthy i.raw then toKebab (jsCoalesce i.raw)
  else
    let parts :=
      if truthy i.team || truthy i.component then [i.team, i.component]
      else if truthy i.service || truthy i.type then [i.project, i.service, i.type]
      else [i.project, i.description]
    let base := toKebab (joinHyphen ((parts.filter truthy).map jsCoalesce))
    if truthy i.pfx then toKebab (jsCoalesce i.pfx ++ '-' :: base) else base

/-! ## Claim-side definitions

These are written from the specification's wording, to be compared with the
definitions above (which are translated from the source). -/

/-- Two-state matcher for the anchored regex `^[a-z0-9]+(-[a-z0-9]+)*$` of the
CanonicalName invariant.  State `true`: at the start of a segment, at least
one `[a-z0-9]` is required; state `false`: inside a segment, the input may
end, continue the segment, or start a new segment after a hyphen. -/
def canonAux : Bool → List Char → Bool
  | true, [] => false
  | true, c :: cs => alnumLower c && canonAux false cs
  | false, [] => true
  | false, c :: cs =>
    if alnumLower c then canonAux false cs else (c == '-') && canonAux true cs

/-- `^[a-z0-9]+(-[a-z0-9]+)*$`: lowercase alphanumeric segments joined by
single hyphens, no leading/trailing hyphen, no empty segment. -/
def canonMatch (cs : List Char) : Bool :=
  canonAux true cs

/-- Spec rule 1 (character-set rule). -/
def ruleCharsetMsgs (n : List Char) : List String :=
  if !(!n.isEmpty && n.all charsetOk) then [msgCharset] else []

/-- Spec rule 2 (forbidden-character safety net). -/
def ruleForbiddenMsgs (n : List Char) : List String :=
  if n.any forbiddenChar then [msgForbidden] else []

/-- Spec rule 3 (double-hyphen rule). -/
def ruleDoubleMsgs (n : List Char) : List String :=
  if hasDouble n then [msgDouble] else []

/-- Spec rule 4 (edge-hyphen rule). -/
def ruleEdgeMsgs (n : List Char) : List String :=
  if (n.head? == some '-') || (n.getLast? == some '-') then [msgEdge] else []

/-- Spec rule 6 (minimum-segment rule), with the variant's message text. -/
def ruleMinSegMsgs (msg : String) (n : List Char) : List String :=
  if (partsOf n).length < 2 then [msg] else []

/-- Spec rule 7 (per-segment bad-token rule), with the variant's token set. -/
def ruleTokenMsgs (bad : List (List Char)) (n : List Char) : List String :=
  forEachPart (tokenMsgs bad) (partsOf n)

/-- `buildRepoName` as described by the claim: if `raw` is non-empty the
result is `toKebab raw`; otherwise the base is the `toKebab`-normalised
hyphen-join of the pattern selected by field presence (dropping empty
fields), and a non-empty prefix is prepended through one more `toKebab`. -/
def buildRepoNameSpec (i : NamingIntent) : List Char :=
  if !i.raw.isEmpty then toKebab i.raw
  else
    let base :=
      if !i.team.isEmpty || !i.component.isEmpty then
        toKebab (joinHyphen ([i.team, i.component].filter (fun p => !p.isEmpty)))
      else if !i.service.isEmpty || !i.type.isEmpty then
        toKebab (joinHyphen ([i.project, i.service, i.type].filter (fun p => !p.isEmpty)))
      else
        toKebab (joinHyphen ([i.project, i.description].filter (fun p => !p.isEmpty)))
    if !i.pfx.isEmpty then toKebab (i.pfx ++ '-' :: base) else base

/-! ## Helper lemmas -/

lemma beq_hyph_false_of_alnum {c : Char} (h : alnumLower c = true) : (c == '-') = false := by
  have h45 : c.toNat ≠ 45 := by
    simp only [alnumLower, Bool.or_eq_true, decide_eq_true_eq] at h
    omega
  refine beq_eq_false_iff_ne.mpr fun heq => h45 ?_
  rw [heq]
  rfl

lemma ne_hyph_of_alnum {c : Char} (h : alnumLower c = true) : c ≠ '-' :=
  beq_eq_false_iff_ne.mp (beq_hyph_false_of_alnum h)

lemma charsetOk_elim {c : Char} (h : charsetOk c = true) : alnumLower c = true ∨ c = '-' := by
  simpa only [charsetOk, Bool.or_eq_true, beq_iff_eq] using h

lemma charsetOk_of_alnum {c : Char} (h : alnumLower c = true) : charsetOk c = true := by
  simp [charsetOk, h]

lemma charsetOk_hyph : charsetOk '-' = true := by decide

lemma toNat_of_charsetOk {c : Char} (h : charsetOk c = true) :
    c.toNat = 45 ∨ (48 ≤ c.toNat ∧ c.toNat ≤ 57) ∨ (97 ≤ c.toNat ∧ c.toNat ≤ 122) := by
  rcases charsetOk_elim h with h | rfl
  · simp only [alnumLower, Bool.or_eq_true, decide_eq_true_eq] at h
    omega
  · decide

lemma forbidden_false_of_charsetOk {c : Char} (h : charsetOk c = true) :
    forbiddenChar c = false := by
  have ht := toNat_of_charsetOk h
  simp only [forbiddenChar, Bool.or_eq_false_iff, decide_eq_false_iff_not,
    beq_eq_false_iff_ne]
  refine ⟨⟨fun hc => ?_, fun hc => ?_⟩, fun hc => ?_⟩
  · omega
  · subst hc; exact absurd ht (by decide)
  · subst hc; exact absurd ht (by decide)

lemma ws_false_of_charsetOk {c : Char} (h : charsetOk c = true) : jsWs c = false := by
  have ht := toNat_of_charsetOk h
  simp only [jsWs, Bool.or_eq_false_iff, decide_eq_false_iff_not]
  omega

lemma lower_id_of_charsetOk {c : Char} (h : charsetOk c = true) : jsLower c = c := by
  have ht := toNat_of_charsetOk h
  rw [jsLower, if_neg]
  omega

lemma hasDouble_cons (c : Char) (cs : List Char) :
    hasDouble (c :: cs) = (((c == '-') && (cs.head? == some '-')) || hasDouble cs) := by
  cases cs with
  | nil => simp [hasDouble]
  | cons d ds => simp [hasDouble]

lemma getLast?_cons' (c : Char) (cs : List Char) :
    (c :: cs).getLast? = if cs.isEmpty then some c else cs.getLast? := by
  cases cs with
  | nil => rfl
  | cons d ds => simp [List.getLast?_cons_cons]

lemma some_beq_some (a b : Char) : ((some a == some b)) = (a == b) := rfl

lemma canonAux_true_cons (c : Char) (cs : List Char) :
    canonAux true (c :: cs) = (alnumLower c && canonAux false cs) := rfl

lemma canonAux_false_cons (c : Char) (cs : List Char) :
    canonAux false (c :: cs) =
      (if alnumLower c then canonAux false cs else (c == '-') && canonAux true cs) := rfl

/-- The regex matcher agrees with the four structural checks of the validator
(in both states). -/
lemma canonAux_eq (cs : List Char) :
    (canonAux true cs =
      (!cs.isEmpty && cs.all charsetOk && !hasDouble cs &&
       !(cs.head? == some '-') && !(cs.getLast? == some '-')))
  ∧ (canonAux false cs =
      (cs.all charsetOk && !hasDouble cs && !(cs.getLast? == some '-'))) := by
  induction cs with
  | nil => exact ⟨rfl, rfl⟩
  | cons c cs ih =>
    obtain ⟨ihT, ihF⟩ := ih
    by_cases ha : alnumLower c = true
    · have hb := beq_hyph_false_of_alnum ha
      have hcs : charsetOk c = true := charsetOk_of_alnum ha
      refine ⟨?_, ?_⟩
      · rw [canonAux_true_cons, ihF]
        cases cs with
        | nil => simp [ha, hcs, hb, hasDouble, some_beq_some]
        | cons d ds =>
          simp [ha, hcs, hb, hasDouble_cons, some_beq_some,
            List.getLast?_cons_cons, Bool.not_or,
            Bool.and_comm, Bool.and_left_comm, Bool.and_assoc]
      · rw [canonAux_false_cons, if_pos ha, ihF]
        cases cs with
        | nil => simp [ha, hcs, hb, hasDouble, some_beq_some]
        | cons d ds =>
          simp [ha, hcs, hb, hasDouble_cons, some_beq_some,
            List.getLast?_cons_cons, Bool.not_or,
            Bool.and_comm, Bool.and_left_comm, Bool.and_assoc]
    · have ha' : alnumLower c = false := by simpa using ha
      by_cases hc : c = '-'
      · subst hc
        refine ⟨?_, ?_⟩
        · rw [canonAux_true_cons]
          cases cs with
          | nil => simp [ha', hasDouble, some_beq_some]
          | cons d ds => simp [ha', hasDouble_cons, some_beq_some]
        · rw [canonAux_false_cons, if_neg (by simp [ha']), ihT]
          cases cs with
          | nil => simp [hasDouble, some_beq_some]
          | cons d ds =>
            simp [hasDouble_cons, some_beq_some, List.getLast?_cons_cons,
              charsetOk_hyph, Bool.not_or,
              Bool.and_comm, Bool.and_left_comm, Bool.and_assoc]
      · have hb : (c == '-') = false := beq_eq_false_iff_ne.mpr hc
        have hcs : charsetOk c = false := by
          simp [charsetOk, ha', hb]
        refine ⟨?_, ?_⟩
        · rw [canonAux_true_cons]
          simp [ha', hcs, hb, some_beq_some]
        · rw [canonAux_false_cons, if_neg (by simp [ha'])]
          simp [ha', hcs, hb, some_beq_some]

lemma canonMatch_eq_true_iff (n : List Char) :
    canonMatch n = true ↔
      ((!n.isEmpty && n.all charsetOk) = true ∧ hasDouble n = false ∧
       ((n.head? == some '-') || (n.getLast? == some '-')) = false) := by
  rw [canonMatch, (canonAux_eq n).1]
  simp only [Bool.and_eq_true, Bool.not_eq_true', Bool.or_eq_false_iff]
  tauto

lemma iteP_nil_iff {b : Prop} [Decidable b] {m : String} :
    ((if b then [m] else []) = ([] : List String)) ↔ ¬b := by
  split <;> simp_all

lemma iteB_nil_iff {b : Bool} {m : String} :
    ((if b then [m] else []) = ([] : List String)) ↔ b = false := by
  cases b <;> simp

lemma forEachPart_eq_nil {f : List Char → List String} {ps : List (List Char)} :
    forEachPart f ps = [] ↔ ∀ p ∈ ps, f p = [] := by
  induction ps with
  | nil => simp [forEachPart]
  | cons p ps ih => simp [forEachPart, ih]

lemma tokenMsgs_eq_nil {bad : List (List Char)} {p : List Char} :
    tokenMsgs bad p = [] ↔ (p ∉ bad ∧ vpat p = false) := by
  simp [tokenMsgs, iteP_nil_iff, iteB_nil_iff]

lemma mem_forEachPart {f : List Char → List String} {ps : List (List Char)}
    {p : List Char} {x : String} (hp : p ∈ ps) (hx : x ∈ f p) :
    x ∈ forEachPart f ps := by
  induction ps with
  | nil => cases hp
  | cons q qs ih =>
    rcases List.mem_cons.mp hp with rfl | hp'
    · exact List.mem_append.mpr (Or.inl hx)
    · exact List.mem_append.mpr (Or.inr (ih hp'))

lemma length_beq_zero (l : List String) : ((l.length == 0 : Bool)) = l.isEmpty := by
  cases l <;> rfl

lemma any_forbidden_false {n : List Char} (h : n.all charsetOk = true) :
    n.any forbiddenChar = false := by
  rw [← Bool.not_eq_true, List.any_eq_true]
  rintro ⟨c, hc, hf⟩
  rw [List.all_eq_true] at h
  rw [forbidden_false_of_charsetOk (h c hc)] at hf
  simp at hf

/-- `ok` of the templates-variant validator, characterised by the
CanonicalName regex, the segment count, and segment-level token freedom. -/
lemma okT_iff (n : List Char) :
    (validateRepoNameT n).ok = true ↔
      (canonMatch n = true ∧ 2 ≤ (partsOf n).length ∧
       ∀ p ∈ partsOf n, p ∉ badTokensT ∧ vpat p = false) := by
  have hok : (validateRepoNameT n).ok =
      ((validateRepoNameT n).errors.length == 0) := rfl
  rw [hok, length_beq_zero, List.isEmpty_iff]
  show ((if !(!n.isEmpty && n.all charsetOk) then [msgCharset] else []) ++
    (if n.any forbiddenChar then [msgForbidden] else []) ++
    (if hasDouble n then [msgDouble] else []) ++
    (if (n.head? == some '-') || (n.getLast? == some '-') then [msgEdge] else []) ++
    (if (partsOf n).length < 2 then [msgMinSegT] else []) ++
    forEachPart (tokenMsgs badTokensT) (partsOf n)) = [] ↔ _
  simp only [List.append_eq_nil, iteB_nil_iff, iteP_nil_iff, forEachPart_eq_nil,
    tokenMsgs_eq_nil, Bool.not_eq_true, Bool.not_eq_false', canonMatch_eq_true_iff,
    Nat.not_lt, Bool.and_eq_true, Bool.or_eq_false_iff]
  constructor
  · intro h
    tauto
  · intro h
    have h2 : n.any forbiddenChar = false := any_forbidden_false (by tauto)
    tauto

/-- `ok` of the `_naming.mjs` validator, same characterisation with its own
(smaller) token set. -/
lemma okNaming_iff (n : List Char) :
    (validateRepoNameNaming n).ok = true ↔
      (canonMatch n = true ∧ 2 ≤ (partsOf n).length ∧
       ∀ p ∈ partsOf n, p ∉ badTokensNaming ∧ vpat p = false) := by
  have hok : (validateRepoNameNaming n).ok =
      ((validateRepoNameNaming n).errors.length == 0) := rfl
  rw [hok, length_beq_zero, List.isEmpty_iff]
  show ((if !(!n.isEmpty && n.all charsetOk) then [msgCharset] else []) ++
    (if n.any forbiddenChar then [msgForbidden] else []) ++
    (if hasDouble n then [msgDouble] else []) ++
    (if (n.head? == some '-') || (n.getLast? == some '-') then [msgEdge] else []) ++
    forEachPart (tokenMsgs badTokensNaming) (partsOf n) ++
    (if (partsOf n).length < 2 then [msgMinSegNaming] else [])) = [] ↔ _
  simp only [List.append_eq_nil, iteB_nil_iff, iteP_nil_iff, forEachPart_eq_nil,
    tokenMsgs_eq_nil, Bool.not_eq_true, Bool.not_eq_false', canonMatch_eq_true_iff,
    Nat.not_lt, Bool.and_eq_true, Bool.or_eq_false_iff]
  constructor
  · intro h
    tauto
  · intro h
    have h2 : n.any forbiddenChar = false := any_forbidden_false (by tauto)
    tauto

/-! ### Lemmas about the normalisation pipeline -/

lemma dropWhile_head_not {p : Char → Bool} :
    ∀ (cs : List Char) {h t}, cs.dropWhile p = h :: t → p h = false := by
  intro cs
  induction cs with
  | nil => intro h t hc; cases hc
  | cons c cs ih =>
    intro h t hc
    rw [List.dropWhile_cons] at hc
    split at hc
    · exact ih hc
    · cases hc
      simpa using ‹¬ p c = true›

lemma dropWhile_all {p q : Char → Bool} {cs : List Char} (h : cs.all q = true) :
    (cs.dropWhile p).all q = true := by
  induction cs with
  | nil => exact h
  | cons c cs ih =>
    rw [List.all_cons, Bool.and_eq_true] at h
    rw [List.dropWhile_cons]
    split
    · exact ih h.2
    · simp [List.all_cons, h.1, h.2]

lemma dropWhile_hasDouble {p : Char → Bool} {cs : List Char}
    (h : hasDouble cs = false) : hasDouble (cs.dropWhile p) = false := by
  induction cs with
  | nil => simpa using h
  | cons c cs ih =>
    have htail : hasDouble cs = false := by
      rw [hasDouble_cons, Bool.or_eq_false_iff] at h
      exact h.2
    rw [List.dropWhile_cons]
    split
    · exact ih htail
    · exact h

lemma dtw_cons (p : Char → Bool) (c : Char) (cs : List Char) :
    dropTrailingWhile p (c :: cs) =
      if (dropTrailingWhile p cs).isEmpty then (if p c then [] else [c])
      else c :: dropTrailingWhile p cs := by
  cases h : dropTrailingWhile p cs with
  | nil => simp [dropTrailingWhile, h]
  | cons r rs => simp [dropTrailingWhile, h]

lemma dtw_all {p q : Char → Bool} : ∀ {cs : List Char}, cs.all q = true →
    (dropTrailingWhile p cs).all q = true := by
  intro cs
  induction cs with
  | nil => intro h; exact h
  | cons c cs ih =>
    intro h
    rw [List.all_cons, Bool.and_eq_true] at h
    rw [dtw_cons]
    by_cases he : (dropTrailingWhile p cs).isEmpty = true
    · rw [if_pos he]
      by_cases hpc : p c = true
      · rw [if_pos hpc]; rfl
      · rw [if_neg hpc]; simp [h.1]
    · rw [if_neg he]
      simp [List.all_cons, h.1, ih h.2]

lemma dtw_head (p : Char → Bool) : ∀ cs : List Char,
    dropTrailingWhile p cs = [] ∨
      (dropTrailingWhile p cs).head? = cs.head? := by
  intro cs
  cases cs with
  | nil => left; rfl
  | cons c cs =>
    rw [dtw_cons]
    by_cases he : (dropTrailingWhile p cs).isEmpty = true
    · rw [if_pos he]
      by_cases hpc : p c = true
      · left; rw [if_pos hpc]
      · right; rw [if_neg hpc]; rfl
    · right; rw [if_neg he]; rfl

lemma dtw_last {p : Char → Bool} : ∀ {cs : List Char} {c : Char},
    (dropTrailingWhile p cs).getLast? = some c → p c = false := by
  intro cs
  induction cs with
  | nil => intro c h; cases h
  | cons a cs ih =>
    intro c h
    rw [dtw_cons] at h
    by_cases he : (dropTrailingWhile p cs).isEmpty = true
    · rw [if_pos he] at h
      by_cases hpa : p a = true
      · rw [if_pos hpa] at h; cases h
      · rw [if_neg hpa] at h
        have : a = c := by simpa using h
        subst this
        simpa using hpa
    · rw [if_neg he] at h
      rw [getLast?_cons', if_neg he] at h
      exact ih h

lemma dtw_hasDouble {p : Char → Bool} : ∀ {cs : List Char},
    hasDouble cs = false → hasDouble (dropTrailingWhile p cs) = false := by
  intro cs
  induction cs with
  | nil => intro h; exact h
  | cons a cs ih =>
    intro h
    have htail : hasDouble cs = false := by
      rw [hasDouble_cons, Bool.or_eq_false_iff] at h
      exact h.2
    rw [dtw_cons]
    by_cases he : (dropTrailingWhile p cs).isEmpty = true
    · rw [if_pos he]
      by_cases hpa : p a = true
      · rw [if_pos hpa]; rfl
      · rw [if_neg hpa]; rfl
    · rw [if_neg he]
      rw [hasDouble_cons, Bool.or_eq_false_iff]
      refine ⟨?_, ih htail⟩
      rcases dtw_head p cs with hnil | hh
      · rw [hnil] at he; simp at he
      · rw [hh]
        rw [hasDouble_cons, Bool.or_eq_false_iff] at h
        exact h.1

lemma dtw_id {p : Char → Bool} : ∀ {cs : List Char},
    (∀ c, cs.getLast? = some c → p c = false) → dropTrailingWhile p cs = cs := by
  intro cs
  induction cs with
  | nil => intro _; rfl
  | cons a cs ih =>
    intro h
    rw [dtw_cons]
    cases hcs : cs with
    | nil =>
      subst hcs
      have hpa : p a = false := h a rfl
      simp [dropTrailingWhile, hpa]
    | cons d ds =>
      subst hcs
      have h' : ∀ c, (d :: ds).getLast? = some c → p c = false := by
        intro c hc
        apply h
        rw [getLast?_cons', if_neg (by simp)]
        exact hc
      rw [ih h', if_neg (by simp)]

lemma rra_cons (b : Bool) (c : Char) (cs : List Char) :
    replaceRunsAux b (c :: cs) =
      if alnumLower c then c :: replaceRunsAux false cs
      else if b then replaceRunsAux true cs
      else '-' :: replaceRunsAux true cs := rfl

lemma rra_all : ∀ (b : Bool) (cs : List Char),
    (replaceRunsAux b cs).all charsetOk = true := by
  intro b cs
  induction cs generalizing b with
  | nil => rfl
  | cons c cs ih =>
    rw [rra_cons]
    by_cases ha : alnumLower c = true
    · rw [if_pos ha]
      simp [List.all_cons, charsetOk_of_alnum ha, ih false]
    · rw [if_neg ha]
      by_cases hb : b = true
      · rw [if_pos hb]; exact ih true
      · rw [if_neg hb]
        simp [List.all_cons, charsetOk_hyph, ih true]

lemma rra_true_head : ∀ {cs : List Char} {h t},
    replaceRunsAux true cs = h :: t → alnumLower h = true := by
  intro cs
  induction cs with
  | nil => intro h t he; cases he
  | cons c cs ih =>
    intro h t he
    rw [rra_cons] at he
    by_cases ha : alnumLower c = true
    · rw [if_pos ha] at he; cases he; exact ha
    · rw [if_neg ha, if_pos rfl] at he; exact ih he

lemma rra_noDouble : ∀ (b : Bool) (cs : List Char),
    hasDouble (replaceRunsAux b cs) = false := by
  intro b cs
  induction cs generalizing b with
  | nil => rfl
  | cons c cs ih =>
    rw [rra_cons]
    by_cases ha : alnumLower c = true
    · rw [if_pos ha, hasDouble_cons, Bool.or_eq_false_iff]
      exact ⟨by rw [beq_hyph_false_of_alnum ha, Bool.false_and], ih false⟩
    · rw [if_neg ha]
      by_cases hb : b = true
      · rw [if_pos hb]; exact ih true
      · rw [if_neg hb, hasDouble_cons, Bool.or_eq_false_iff]
        refine ⟨?_, ih true⟩
        cases hr : replaceRunsAux true cs with
        | nil => simp
        | cons h t =>
          have hh : alnumLower h = true := rra_true_head hr
          simp [some_beq_some, beq_hyph_false_of_alnum hh]

lemma rra_id : ∀ {cs : List Char}, cs.all charsetOk = true →
    hasDouble cs = false → replaceRunsAux false cs = cs := by
  intro cs
  induction cs with
  | nil => intro _ _; rfl
  | cons c cs ih =>
    intro hall hd
    rw [List.all_cons, Bool.and_eq_true] at hall
    have htail : hasDouble cs = false := by
      rw [hasDouble_cons, Bool.or_eq_false_iff] at hd
      exact hd.2
    rw [rra_cons]
    rcases charsetOk_elim hall.1 with ha | rfl
    · rw [if_pos ha, ih hall.2 htail]
    · rw [if_neg (by decide), if_neg (by simp)]
      congr 1
      cases cs with
      | nil => rfl
      | cons d ds =>
        rw [hasDouble_cons, Bool.or_eq_false_iff] at hd
        have hdh : (d == '-') = false := by
          simpa [some_beq_some] using hd.1
        have hcd : charsetOk d = true := by
          have h4 := hall.2
          rw [List.all_cons, Bool.and_eq_true] at h4
          exact h4.1
        have hd_alnum : alnumLower d = true := by
          rcases charsetOk_elim hcd with h | rfl
          · exact h
          · simp at hdh
        have h2 := ih hall.2 htail
        rw [rra_cons, if_pos hd_alnum] at h2
        injection h2 with _ h3
        rw [rra_cons, if_pos hd_alnum, h3]

lemma rra_true_nil : ∀ {cs : List Char},
    cs.all (fun c => !alnumLower c) = true → replaceRunsAux true cs = [] := by
  intro cs
  induction cs with
  | nil => intro _; rfl
  | cons c cs ih =>
    intro h
    rw [List.all_cons, Bool.and_eq_true, Bool.not_eq_true'] at h
    rw [rra_cons, if_neg (by simp [h.1]), if_pos rfl]
    exact ih h.2

lemma cha_cons (b : Bool) (c : Char) (cs : List Char) :
    collapseHyphensAux b (c :: cs) =
      if c == '-' then
        (if b then collapseHyphensAux true cs else '-' :: collapseHyphensAux true cs)
      else c :: collapseHyphensAux false cs := rfl

lemma cha_id : ∀ {cs : List Char},
    hasDouble cs = false → collapseHyphensAux false cs = cs := by
  intro cs
  induction cs with
  | nil => intro _; rfl
  | cons c cs ih =>
    intro hd
    have hd' := hd
    rw [hasDouble_cons, Bool.or_eq_false_iff] at hd'
    rw [cha_cons]
    by_cases hc : (c == '-') = true
    · have hceq : c = '-' := by simpa using hc
      subst hceq
      rw [if_pos hc, if_neg (by simp)]
      congr 1
      cases cs with
      | nil => rfl
      | cons d ds =>
        have hdh : (d == '-') = false := by
          simpa [some_beq_some] using hd'.1
        have h2 := ih hd'.2
        rw [cha_cons, if_neg (by simp [hdh])] at h2
        injection h2 with _ h3
        rw [cha_cons, if_neg (by simp [hdh]), h3]
    · rw [if_neg hc]
      congr 1
      exact ih hd'.2

lemma getLast?_cons_ne_none : ∀ (cs : List Char) (c : Char),
    (c :: cs).getLast? ≠ none := by
  intro cs
  induction cs with
  | nil => intro c h; cases h
  | cons d ds ih =>
    intro c h
    rw [List.getLast?_cons_cons] at h
    exact ih d h

/-- The output of `toKebab` is empty or matches the CanonicalName regex
`^[a-z0-9]+(-[a-z0-9]+)*$`. -/
lemma toKebab_props (s : List Char) :
    toKebab s = [] ∨ canonMatch (toKebab s) = true := by
  have hall2 : (stripEdges (replaceRuns ((jsTrim s).map jsLower))).all charsetOk = true :=
    dtw_all (dropWhile_all (rra_all false _))
  have hnd2 : hasDouble (stripEdges (replaceRuns ((jsTrim s).map jsLower))) = false :=
    dtw_hasDouble (dropWhile_hasDouble (rra_noDouble false _))
  have htk : toKebab s = stripEdges (replaceRuns ((jsTrim s).map jsLower)) := by
    rw [toKebab]
    exact cha_id hnd2
  cases hs2 : stripEdges (replaceRuns ((jsTrim s).map jsLower)) with
  | nil => left; rw [htk, hs2]
  | cons h t =>
    right
    -- head of the stripped list is the head of the dropWhile output, hence not a hyphen
    have hhd : (h == '-') = false := by
      rcases dtw_head (fun c => c == '-')
          ((replaceRuns ((jsTrim s).map jsLower)).dropWhile (fun c => c == '-')) with
        hnil | hh
      · rw [stripEdges] at hs2; rw [hnil] at hs2; cases hs2
      · rw [stripEdges] at hs2
        rw [hs2] at hh
        cases hdw : (replaceRuns ((jsTrim s).map jsLower)).dropWhile (fun c => c == '-') with
        | nil => rw [hdw] at hh; cases hh
        | cons h1 t1 =>
          rw [hdw] at hh
          have heq1 : h = h1 := by simpa using hh
          subst heq1
          exact dropWhile_head_not (p := fun c => c == '-') _ hdw
    -- last of the stripped list is not a hyphen
    have hlast : ((h :: t).getLast? == some '-') = false := by
      cases hgl : (h :: t : List Char).getLast? with
      | none => exact absurd hgl (getLast?_cons_ne_none t h)
      | some c =>
        have hch : (c == '-') = false := by
          apply dtw_last (p := fun c => c == '-')
          rw [← stripEdges, hs2]
          exact hgl
        simpa [some_beq_some] using hch
    rw [hs2] at hall2 hnd2
    rw [htk, hs2, canonMatch, (canonAux_eq _).1]
    simp [hall2, hnd2, hhd, hlast, some_beq_some]

lemma map_lower_id : ∀ {t : List Char}, t.all charsetOk = true →
    t.map jsLower = t := by
  intro t
  induction t with
  | nil => intro _; rfl
  | cons c cs ih =>
    intro h
    rw [List.all_cons, Bool.and_eq_true] at h
    rw [List.map_cons, lower_id_of_charsetOk h.1, ih h.2]

lemma mem_of_getLast?' : ∀ {cs : List Char} {c : Char},
    cs.getLast? = some c → c ∈ cs := by
  intro cs
  induction cs with
  | nil => intro c h; cases h
  | cons a as ih =>
    intro c h
    cases as with
    | nil =>
      have : a = c := by simpa using h
      subst this
      exact List.mem_cons_self _ _
    | cons b bs =>
      rw [List.getLast?_cons_cons] at h
      exact List.mem_cons_of_mem _ (ih h)

/-- `jsTrim` does not change a string all of whose characters are in
`[a-z0-9-]`. -/
lemma jsTrim_id {t : List Char} (h : t.all charsetOk = true) : jsTrim t = t := by
  have hdw : t.dropWhile jsWs = t := by
    cases t with
    | nil => rfl
    | cons c cs =>
      rw [List.all_cons, Bool.and_eq_true] at h
      exact List.dropWhile_cons_of_neg (by simp [ws_false_of_charsetOk h.1])
  rw [jsTrim, hdw]
  apply dtw_id
  intro c hc
  have hmem : c ∈ t := mem_of_getLast?' hc
  rw [List.all_eq_true] at h
  exact ws_false_of_charsetOk (h c hmem)

/-- `stripEdges` does not change a list with no edge hyphen. -/
lemma stripEdges_id {t : List Char}
    (hh : (t.head? == some '-') = false) (hl : (t.getLast? == some '-') = false) :
    stripEdges t = t := by
  have hdw : t.dropWhile (fun c => c == '-') = t := by
    cases t with
    | nil => rfl
    | cons c cs =>
      apply List.dropWhile_cons_of_neg
      simpa [some_beq_some] using hh
  rw [stripEdges, hdw]
  apply dtw_id
  intro c hc
  rw [hc] at hl
  simpa [some_beq_some] using hl

/-- `toKebab` does not change its own output (the heart of idempotence). -/
lemma toKebab_fixed {t : List Char} (h : canonMatch t = true) : toKebab t = t := by
  rw [canonMatch, (canonAux_eq t).1] at h
  simp only [Bool.and_eq_true, Bool.not_eq_true'] at h
  obtain ⟨⟨⟨⟨_, hall⟩, hnd⟩, hhd⟩, hlast⟩ := h
  rw [toKebab, jsTrim_id hall, map_lower_id hall, replaceRuns, rra_id hall hnd,
    stripEdges_id hhd hlast, collapseHyphens, cha_id hnd]

/-- An input with no character that kebab-survives (i.e. no character whose
lowering is in `[a-z0-9]`) normalises to the empty string. -/
lemma toKebab_nil_of_no_alnum {s : List Char}
    (h : s.all (fun c => !alnumLower (jsLower c)) = true) : toKebab s = [] := by
  have htr : (jsTrim s).all (fun c => !alnumLower (jsLower c)) = true :=
    dtw_all (dropWhile_all h)
  have hmap : ((jsTrim s).map jsLower).all (fun d => !alnumLower d) = true := by
    rw [List.all_map]
    exact htr
  rw [toKebab]
  cases hjt : (jsTrim s).map jsLower with
  | nil => rfl
  | cons c cs =>
    rw [hjt] at hmap
    rw [List.all_cons, Bool.and_eq_true, Bool.not_eq_true'] at hmap
    rw [replaceRuns, rra_cons, if_neg (by simp [hmap.1]), if_neg (by simp),
      rra_true_nil hmap.2]
    rfl

lemma ok_eq_isEmpty_T (n : List Char) :
    (validateRepoNameT n).ok = (validateRepoNameT n).errors.isEmpty :=
  length_beq_zero _

lemma ok_eq_isEmpty_Naming (n : List Char) :
    (validateRepoNameNaming n).ok = (validateRepoNameNaming n).errors.isEmpty :=
  length_beq_zero _

lemma ok_false_of_mem {r : ValidationResult} (hr : r.ok = r.errors.isEmpty)
    {x : String} (h : x ∈ r.errors) : r.ok = false := by
  rw [hr]
  cases herr : r.errors with
  | nil => rw [herr] at h; cases h
  | cons a l => rfl

/-- Decomposition of the templates-variant error list into the spec's rules
(in the source's order for that variant). -/
lemma errsT_decomp (n : List Char) :
    (validateRepoNameT n).errors =
      ruleCharsetMsgs n ++ ruleForbiddenMsgs n ++ ruleDoubleMsgs n ++
      ruleEdgeMsgs n ++ ruleMinSegMsgs msgMinSegT n ++ ruleTokenMsgs badTokensT n := rfl

/-- Decomposition of the `_naming.mjs` error list into the spec's rules
(that variant runs the token loop before the segment-count rule). -/
lemma errsNaming_decomp (n : List Char) :
    (validateRepoNameNaming n).errors =
      ruleCharsetMsgs n ++ ruleForbiddenMsgs n ++ ruleDoubleMsgs n ++
      ruleEdgeMsgs n ++ ruleTokenMsgs badTokensNaming n ++
      ruleMinSegMsgs msgMinSegNaming n := rfl

lemma mem_tokenBlock_T {n p : List Char} (hp : p ∈ partsOf n) {x : String}
    (hx : x ∈ tokenMsgs badTokensT p) : x ∈ (validateRepoNameT n).errors := by
  rw [errsT_decomp]
  exact List.mem_append.mpr (Or.inr (mem_forEachPart hp hx))

lemma mem_tokenBlock_Naming {n p : List Char} (hp : p ∈ partsOf n) {x : String}
    (hx : x ∈ tokenMsgs badTokensNaming p) :
    x ∈ (validateRepoNameNaming n).errors := by
  rw [errsNaming_decomp]
  exact List.mem_append.mpr (Or.inl (List.mem_append.mpr (Or.inr (mem_forEachPart hp hx))))

lemma msgVersioning_mem {bad : List (List Char)} {p : List Char} (h : p ∈ bad) :
    msgVersioning p ∈ tokenMsgs bad p := by
  rw [tokenMsgs, if_pos h]
  exact List.mem_append.mpr (Or.inl (List.mem_cons_self _ _))

lemma msgVersion_mem {bad : List (List Char)} {p : List Char} (h : vpat p = true) :
    msgVersion p ∈ tokenMsgs bad p := by
  rw [tokenMsgs, h]
  exact List.mem_append.mpr (Or.inr (by simp))

lemma msgVersioning_ne_msgVersion (p : List Char) : msgVersioning p ≠ msgVersion p := by
  intro h
  have hl := congrArg (fun s : String => s.data.length) h
  simp only [msgVersioning, msgVersion] at hl
  have h1 : ("Avoid versioning/placeholder token: \"".toList).length = 37 := rfl
  have h2 : ("Avoid version token: \"".toList).length = 22 := rfl
  simp only [List.length_append, h1, h2] at hl
  omega

lemma truthy_eq (v : JsVal) : truthy v = !(jsCoalesce v).isEmpty := by
  cases v <;> rfl

lemma filter_truthy_map (l : List JsVal) :
    (l.filter truthy).map jsCoalesce =
      (l.map jsCoalesce).filter (fun p => !p.isEmpty) := by
  induction l with
  | nil => rfl
  | cons a l ih =>
    rw [List.filter_cons, List.map_cons, List.filter_cons, ← truthy_eq]
    by_cases ha : truthy a = true
    · rw [if_pos ha, if_pos ha, List.map_cons, ih]
    · rw [if_neg ha, if_neg ha, ih]

lemma bool_eq_of_iff {a b : Bool} (h : a = true ↔ b = true) : a = b := by
  cases a <;> cases b <;> simp_all

/-- The larger token set splits into the smaller one, the `v<digits>` pattern,
and the two extra words. -/
lemma badT_split {p : List Char} (h : p ∈ badTokensT) :
    p ∈ badTokensNaming ∨ vpat p = true ∨ p = "release".toList ∨ p = "rev".toList := by
  simp only [badTokensT, List.map_cons, List.map_nil, List.mem_cons,
    List.not_mem_nil, or_false] at h
  rcases h with rfl|rfl|rfl|rfl|rfl|rfl|rfl|rfl|rfl|rfl|rfl|rfl|rfl|rfl|rfl|rfl <;> decide

lemma badN_sub {p : List Char} (h : p ∈ badTokensNaming) : p ∈ badTokensT := by
  simp only [badTokensNaming, List.map_cons, List.map_nil, List.mem_cons,
    List.not_mem_nil, or_false] at h
  rcases h with rfl|rfl|rfl|rfl|rfl|rfl|rfl|rfl|rfl <;> decide

lemma buildRepoName_eq_spec (i : NamingIntent) : buildRepoName i = buildRepoNameSpec i := by
  by_cases hr : (!i.raw.isEmpty) = true <;>
    by_cases ht : (!i.team.isEmpty || !i.component.isEmpty) = true <;>
      by_cases hs : (!i.service.isEmpty || !i.type.isEmpty) = true <;>
        simp [buildRepoName, buildRepoNameSpec, hr, ht, hs]

lemma buildRepoNameJs_eq (i : NamingIntentJs) :
    buildRepoNameJs i = buildRepoName (coerceIntent i) := by
  simp only [buildRepoNameJs, buildRepoName, coerceIntent, truthy_eq,
    filter_truthy_map, apply_ite (List.map jsCoalesce), List.map_cons, List.map_nil]

/-! ## Claim theorems -/

/-- C1: for every NamingIntent, `buildRepoName` returns `toKebab raw` when
`raw` is non-empty (all other fields ignored); otherwise it kebab-normalises
the hyphen-join of `[team, component]` when team or component is non-empty,
else `[project, service, type]` when service or type is non-empty, else
`[project, description]`, dropping empty fields, and a non-empty prefix is
prepended through one more normalisation.  In particular
`buildRepoName {raw: "MyApp"} = "myapp"` and
`buildRepoName {project: "ecom", service: "order", type: "api"} =
"ecom-order-api"`. -/
theorem C1_buildRepoName_matches_spec :
    (∀ i : NamingIntent, buildRepoName i = buildRepoNameSpec i) ∧
    buildRepoName ⟨[], [], [], [], [], [], [], "MyApp".toList⟩ = "myapp".toList ∧
    buildRepoName ⟨[], "ecom".toList, [], "order".toList, "api".toList, [], [], []⟩ =
      "ecom-order-api".toList :=
  ⟨buildRepoName_eq_spec, by decide, by decide⟩

/-- C2: for every string, the validator's `ok` field is true exactly when the
string matches `^[a-z0-9]+(-[a-z0-9]+)*$`, splits into at least two non-empty
hyphen segments, and no segment is in the variant's BadVersionToken set or
matches `^v\d+$` (stated for both source variants, each against its own
token set). -/
theorem C2_validator_ok_characterisation :
    ∀ n : List Char,
      ((validateRepoNameT n).ok =
        (canonMatch n && decide (2 ≤ (partsOf n).length) &&
         (partsOf n).all (fun p => !(decide (p ∈ badTokensT)) && !(vpat p)))) ∧
      ((validateRepoNameNaming n).ok =
        (canonMatch n && decide (2 ≤ (partsOf n).length) &&
         (partsOf n).all (fun p => !(decide (p ∈ badTokensNaming)) && !(vpat p)))) := by
  intro n
  constructor
  · apply bool_eq_of_iff
    rw [okT_iff]
    simp only [Bool.and_eq_true, List.all_eq_true, decide_eq_true_eq,
      Bool.not_eq_true', decide_eq_false_iff_not]
    tauto
  · apply bool_eq_of_iff
    rw [okNaming_iff]
    simp only [Bool.and_eq_true, List.all_eq_true, decide_eq_true_eq,
      Bool.not_eq_true', decide_eq_false_iff_not]
    tauto

/-- C3: both validators run every rule unconditionally, appending one message
per violated rule (the error list decomposes into the per-rule message
lists, in each variant's order), `ok` is true iff the error list is empty,
and the input `"_--"` — which violates the character-set, double-hyphen and
minimum-segment rules — receives all three corresponding messages. -/
theorem C3_validator_accumulates_all_errors :
    (∀ n, (validateRepoNameT n).errors =
      ruleCharsetMsgs n ++ ruleForbiddenMsgs n ++ ruleDoubleMsgs n ++
      ruleEdgeMsgs n ++ ruleMinSegMsgs msgMinSegT n ++ ruleTokenMsgs badTokensT n) ∧
    (∀ n, (validateRepoNameNaming n).errors =
      ruleCharsetMsgs n ++ ruleForbiddenMsgs n ++ ruleDoubleMsgs n ++
      ruleEdgeMsgs n ++ ruleTokenMsgs badTokensNaming n ++
      ruleMinSegMsgs msgMinSegNaming n) ∧
    (∀ n, (validateRepoNameT n).ok = (validateRepoNameT n).errors.isEmpty) ∧
    (∀ n, (validateRepoNameNaming n).ok = (validateRepoNameNaming n).errors.isEmpty) ∧
    (msgCharset ∈ (validateRepoNameT "_--".toList).errors ∧
     msgDouble ∈ (validateRepoNameT "_--".toList).errors ∧
     msgMinSegT ∈ (validateRepoNameT "_--".toList).errors) ∧
    (msgCharset ∈ (validateRepoNameNaming "_--".toList).errors ∧
     msgDouble ∈ (validateRepoNameNaming "_--".toList).errors ∧
     msgMinSegNaming ∈ (validateRepoNameNaming "_--".toList).errors) :=
  ⟨errsT_decomp, errsNaming_decomp, ok_eq_isEmpty_T, ok_eq_isEmpty_Naming,
    by decide, by decide⟩

/-- C4 counterexample: the `_naming.mjs` `validateRepoName` does NOT coerce
null/undefined — `name.includes("--")` throws a TypeError on a non-string
receiver, so `validateRepoName(undefined)` raises instead of returning a
ValidationResult, contradicting the claim's totality statement. -/
theorem C4_cex_naming_validator_throws :
    validateRepoNameNamingJs JsVal.undefV = Except.error JsError.typeError ∧
    validateRepoNameNamingJs JsVal.nullV = Except.error JsError.typeError :=
  ⟨rfl, rfl⟩

/-- C4 amended: the templates-variant functions are total — its
`validateRepoName` never throws, coerces null/undefined to `""` and returns
`ok = false` there, and `buildRepoName` treats undefined/null fields as empty
strings and always returns a string; the `_naming.mjs` validator is total on
string inputs only. -/
theorem C4_totality_amended :
    (∀ v, isOkE (validateRepoNameTJs v) = true) ∧
    validateRepoNameTJs JsVal.undefV = Except.ok (validateRepoNameT []) ∧
    (validateRepoNameT []).ok = false ∧
    (∀ i : NamingIntentJs, buildRepoNameJs i = buildRepoName (coerceIntent i)) ∧
    (∀ n, validateRepoNameNamingJs (JsVal.str n) = Except.ok (validateRepoNameNaming n)) :=
  ⟨fun v => by cases v <;> rfl, rfl, by decide, buildRepoNameJs_eq, fun _ => rfl⟩

/-- C5: every `toKebab` output is empty or matches
`^[a-z0-9]+(-[a-z0-9]+)*$` (only lowercase letters, digits and single
non-edge hyphens), and inputs with no character that lowers into `[a-z0-9]`
normalise to the empty string. -/
theorem C5_toKebab_canonical :
    (∀ s : List Char, toKebab s = [] ∨ canonMatch (toKebab s) = true) ∧
    (∀ s : List Char,
      s.all (fun c => !alnumLower (jsLower c)) = true → toKebab s = []) :=
  ⟨toKebab_props, fun _ h => toKebab_nil_of_no_alnum h⟩

theorem C5_witness_no_alnum :
    ("@!".toList.all (fun c => !alnumLower (jsLower c)) = true) ∧
    toKebab "@!".toList = [] :=
  ⟨by decide, C5_toKebab_canonical.2 "@!".toList (by decide)⟩

/-- C6: `toKebab` is idempotent. -/
theorem C6_toKebab_idempotent : ∀ s : List Char, toKebab (toKebab s) = toKebab s := by
  intro s
  rcases toKebab_props s with h | h
  · rw [h]; rfl
  · exact toKebab_fixed h

/-- C7 counterexample: `toKebab` of `_naming.mjs` uses `String(s)`, which
stringifies `null` to `"null"` and `undefined` to `"undefined"`, so
`toKebab(null)` is `"null"`, not `""`. -/
theorem C7_cex_naming_toKebab_null :
    toKebabNamingJs JsVal.nullV = "null".toList ∧
    (toKebabNamingJs JsVal.nullV).isEmpty = false ∧
    toKebabNamingJs JsVal.undefV = "undefined".toList ∧
    (toKebabNamingJs JsVal.undefV).isEmpty = false := by
  decide

/-- C7 amended: only the templates-variant `toKebab` (`String(s ?? "")`)
maps null and undefined to the empty string; the `_naming.mjs` variant
yields `"null"` and `"undefined"` respectively. -/
theorem C7_toKebab_null_amended :
    toKebabTJs JsVal.nullV = [] ∧ toKebabTJs JsVal.undefV = [] ∧
    toKebabNamingJs JsVal.nullV = "null".toList ∧
    toKebabNamingJs JsVal.undefV = "undefined".toList := by
  decide

/-- C8 counterexample: the `_naming.mjs` validator's token set lacks
`release` (and `rev`, `v6`..`v10`), so `validateRepoName("my-app-release")`
returns `ok = true` there, contradicting the claim. -/
theorem C8_cex_naming_accepts_release :
    (validateRepoNameNaming "my-app-release".toList).ok = true := by
  decide

/-- C8 amended: the templates-variant validator appends the
versioning/placeholder message and rejects every name with a segment in its
token set {v1..v10, final, latest, new, old, release, rev} (in particular
`my-app-release` and `my-app-final`); the `_naming.mjs` validator does the
same only for its smaller set {v1..v5, final, latest, new, old}. -/
theorem C8_bad_token_amended :
    (∀ n p, p ∈ partsOf n → p ∈ badTokensT →
      msgVersioning p ∈ (validateRepoNameT n).errors ∧
      (validateRepoNameT n).ok = false) ∧
    (validateRepoNameT "my-app-release".toList).ok = false ∧
    (validateRepoNameT "my-app-final".toList).ok = false ∧
    (∀ n p, p ∈ partsOf n → p ∈ badTokensNaming →
      msgVersioning p ∈ (validateRepoNameNaming n).errors ∧
      (validateRepoNameNaming n).ok = false) ∧
    (validateRepoNameNaming "my-app-final".toList).ok = false := by
  refine ⟨?_, by decide, by decide, ?_, by decide⟩
  · intro n p hp hbad
    have hm := mem_tokenBlock_T hp (msgVersioning_mem hbad)
    exact ⟨hm, ok_false_of_mem (ok_eq_isEmpty_T n) hm⟩
  · intro n p hp hbad
    have hm := mem_tokenBlock_Naming hp (msgVersioning_mem hbad)
    exact ⟨hm, ok_false_of_mem (ok_eq_isEmpty_Naming n) hm⟩

theorem C8_witness_final :
    ("final".toList ∈ partsOf "my-app-final".toList) ∧
    ("final".toList ∈ badTokensT) ∧
    msgVersioning "final".toList ∈ (validateRepoNameT "my-app-final".toList).errors ∧
    (validateRepoNameT "my-app-final".toList).ok = false :=
  ⟨by decide, by decide,
    (C8_bad_token_amended.1 "my-app-final".toList "final".toList
      (by decide) (by decide)).1,
    (C8_bad_token_amended.1 "my-app-final".toList "final".toList
      (by decide) (by decide)).2⟩

/-- C9: a segment that is both in the variant's BadVersionToken set and
matches `^v\d+$` (e.g. `"v1"`) triggers BOTH messages — the
versioning/placeholder one and the version-token one, which are distinct
strings — in either validator. -/
theorem C9_token_double_fire :
    ∀ n p, p ∈ partsOf n → vpat p = true →
      ((p ∈ badTokensNaming →
        msgVersioning p ∈ (validateRepoNameNaming n).errors ∧
        msgVersion p ∈ (validateRepoNameNaming n).errors) ∧
       (p ∈ badTokensT →
        msgVersioning p ∈ (validateRepoNameT n).errors ∧
        msgVersion p ∈ (validateRepoNameT n).errors) ∧
       msgVersioning p ≠ msgVersion p) := by
  intro n p hp hv
  exact ⟨fun hb => ⟨mem_tokenBlock_Naming hp (msgVersioning_mem hb),
      mem_tokenBlock_Naming hp (msgVersion_mem hv)⟩,
    fun hb => ⟨mem_tokenBlock_T hp (msgVersioning_mem hb),
      mem_tokenBlock_T hp (msgVersion_mem hv)⟩,
    msgVersioning_ne_msgVersion p⟩

theorem C9_witness_v1 :
    msgVersioning "v1".toList ∈ (validateRepoNameNaming "my-app-v1".toList).errors ∧
    msgVersion "v1".toList ∈ (validateRepoNameNaming "my-app-v1".toList).errors ∧
    msgVersioning "v1".toList ∈ (validateRepoNameT "my-app-v1".toList).errors ∧
    msgVersion "v1".toList ∈ (validateRepoNameT "my-app-v1".toList).errors ∧
    msgVersioning "v1".toList ≠ msgVersion "v1".toList :=
  have h := C9_token_double_fire "my-app-v1".toList "v1".toList (by decide) (by decide)
  ⟨(h.1 (by decide)).1, (h.1 (by decide)).2,
   (h.2.1 (by decide)).1, (h.2.1 (by decide)).2, h.2.2⟩

/-- C10 counterexample: the two validator variants are NOT equivalent:
`data-rev` is accepted by `_naming.mjs` but rejected by the
`_templates.mjs` copy, and on `myapp` the two return different
segment-count message texts ("e.g." vs "e.g.,"). -/
theorem C10_cex_variants_differ :
    (validateRepoNameNaming "data-rev".toList).ok = true ∧
    (validateRepoNameT "data-rev".toList).ok = false ∧
    (validateRepoNameNaming "myapp".toList).errors = [msgMinSegNaming] ∧
    (validateRepoNameT "myapp".toList).errors = [msgMinSegT] ∧
    (msgMinSegNaming == msgMinSegT) = false := by
  decide

/-- C10 amended: the two validator variants return the same `ok` verdict on
every input none of whose segments is `release` or `rev` (the `v6`..`v10`
gap is masked by the shared `v<digits>` pattern rule); their error message
sequences still differ in general (token sets, message wording, and the
position of the segment-count message). -/
theorem C10_ok_agreement_amended :
    ∀ n : List Char,
      ((partsOf n).all
        (fun p => !(p == "release".toList) && !(p == "rev".toList))) = true →
      (validateRepoNameNaming n).ok = (validateRepoNameT n).ok := by
  intro n h
  rw [List.all_eq_true] at h
  have h' : ∀ p ∈ partsOf n, p ≠ "release".toList ∧ p ≠ "rev".toList := by
    intro p hp
    have := h p hp
    simp only [Bool.and_eq_true, Bool.not_eq_true', beq_eq_false_iff_ne] at this
    exact this
  apply bool_eq_of_iff
  rw [okNaming_iff, okT_iff]
  constructor
  · rintro ⟨hc, hl, htok⟩
    refine ⟨hc, hl, fun p hp => ⟨fun hmem => ?_, (htok p hp).2⟩⟩
    rcases badT_split hmem with hm | hv | rfl | rfl
    · exact (htok p hp).1 hm
    · rw [(htok p hp).2] at hv; cases hv
    · exact (h' _ hp).1 rfl
    · exact (h' _ hp).2 rfl
  · rintro ⟨hc, hl, htok⟩
    exact ⟨hc, hl, fun p hp =>
      ⟨fun hmem => (htok p hp).1 (badN_sub hmem), (htok p hp).2⟩⟩

theorem C10_witness_my_app :
    (((partsOf "my-app".toList).all
        (fun p => !(p == "release".toList) && !(p == "rev".toList))) = true) ∧
    (validateRepoNameNaming "my-app".toList).ok = (validateRepoNameT "my-app".toList).ok :=
  ⟨by decide, C10_ok_agreement_amended "my-app".toList (by decide)⟩

end RapidFlutterGcp
